import Mathlib

/-!
Verification of the segment-analysis pipeline of the video-analysis
application (`src/components/analyze.py`, `src/utils/video_processing.py`,
`src/utils/analysis.py`, `src/utils/analysis_cache.py`,
`src/components/chat.py`).

The Python code is shallowly embedded: the filesystem is an explicit
association list from filenames to parsed JSON objects, external services
(vision model, transcription, hashing) are explicit parameters or
`Except`-valued arguments. Integer quantities are `Nat`; where the code
mixes a Python `float` duration with `int(...)`-truncated loop bounds
(`process_uploaded_file`'s segment loop), the float value is modelled as
the exact rational it denotes (the durations discussed, such as 20.5,
are exactly representable in binary floating point).
-/

namespace VideoApp

/-! ## Segment planning (`process_uploaded_file` / `process_video_url`)

Both pipeline entry points enumerate segment start times with
`range(start, end, segment_interval)` and clip each segment's end with
`min(start + interval, end)`. -/

/-- Python `range(start, stop, step)` for a positive step, as used by the
segment loops in `src/components/analyze.py` (lines 202-206 and 333-334).
Embedded by the builtin's documented semantics: the arithmetic sequence
`r[i] = start + i*step` of length `max(0, ceil((stop-start)/step))`
(a zero step raises in Python and never occurs in the pipeline). -/
def pyRange (start stop step : Nat) : List Nat :=
  (List.range ((stop - start + step - 1) / step)).map (fun i => start + i * step)

/-- The segment bounds produced by the pipeline loops when the window
bounds are integers: one `(start, end)` pair per loop iteration, with
`end = min(start + interval, stop)`. This is exact for `process_video_url`
(`src/components/analyze.py` lines 333-334: the duration is truncated by
`int(info_dict.get('duration', 0))` and the window bounds are the integer
config values) and is the integral-bounds special case of `planSegmentsF`
below (see `planSegmentsF_natCast`). -/
def planSegments (start stop interval : Nat) : List (Nat × Nat) :=
  (pyRange start stop interval).map (fun s => (s, min (s + interval) stop))

/-- Python `int(q)` for the nonnegative `float` values that occur in the
pipeline (durations and times): truncation toward zero, i.e. the floor,
computed on the exact rational value (`Rat.floor_def`). -/
def pyInt (q : ℚ) : Nat :=
  (q.num / (q.den : ℤ)).toNat

/-- The segment plan of `process_uploaded_file` with the source's numeric
types kept (`src/components/analyze.py` lines 202-206): the loop runs over
`range(int(start), int(stop), segment_interval)` — truncating both bounds —
while each segment's end is clamped with the **uncast** stop value:
`min(start_time_seg + segment_interval, stop)`. With the range disabled,
`stop` is `video_duration = total_frames / fps`, a Python `float` modelled
here as the exact rational it denotes. -/
def planSegmentsF (startF stopF : ℚ) (interval : Nat) : List (ℚ × ℚ) :=
  (pyRange (pyInt startF) (pyInt stopF) interval).map
    (fun (s : Nat) => ((s : ℚ), min ((s : ℚ) + (interval : ℚ)) stopF))

/-- Range validation and segmentation prefix of `process_uploaded_file`
(`src/components/analyze.py` lines 185-206) and `process_video_url`
(lines 309-334): when the analysis window is enabled, an `end_time` of `0`
defaults to the video duration, an `end_time` beyond the duration is clamped
to it, and `start_time >= end_time` aborts via `st.stop()` before the
segment loop runs; otherwise the loop covers `[0, duration)`
(resp. `[start, end)`). -/
def validateAndPlan (enableRange : Bool) (startT endT duration interval : Nat) :
    Except String (List (Nat × Nat)) :=
  if enableRange then
    let e1 := if endT = 0 then duration else endT
    let e2 := if e1 > duration then duration else e1
    if startT ≥ e2 then
      .error "Start time must be less than end time"
    else
      .ok (planSegments startT e2 interval)
  else
    .ok (planSegments 0 duration interval)

/-- The effective window end as the spec states it: the source duration when
the configured end is `0`, and `min(configured end, duration)` otherwise. -/
def specEffectiveEnd (endT duration : Nat) : Nat :=
  if endT = 0 then duration else min endT duration

theorem pyRange_nil (start stop step : Nat) (h : stop ≤ start) :
    pyRange start stop step = [] := by
  have hd : stop - start = 0 := by omega
  have : (stop - start + step - 1) / step = 0 := by
    rcases Nat.eq_zero_or_pos step with hs | hs
    · simp [hs]
    · exact Nat.div_eq_of_lt (by omega)
  simp [pyRange, this]

theorem ceil_div_succ (d step : Nat) (hstep : 0 < step) (hd : 0 < d) :
    (d + step - 1) / step = (d - step + step - 1) / step + 1 := by
  have h1 : d + step - 1 = (d - 1) + step := by omega
  rw [h1, Nat.add_div_right _ hstep]
  rcases le_or_lt step d with h | h
  · have : d - step + step - 1 = d - 1 := by omega
    rw [this]
  · have h2 : d - step = 0 := by omega
    rw [h2]
    have h3 : (d - 1) / step = 0 := Nat.div_eq_of_lt (by omega)
    have h4 : (0 + step - 1) / step = 0 := Nat.div_eq_of_lt (by omega)
    omega

theorem pyRange_cons (start stop step : Nat) (hstep : 0 < step) (hlt : start < stop) :
    pyRange start stop step = start :: pyRange (start + step) stop step := by
  unfold pyRange
  have hcount : (stop - start + step - 1) / step =
      (stop - (start + step) + step - 1) / step + 1 := by
    have := ceil_div_succ (stop - start) step hstep (by omega)
    have he : stop - start - step = stop - (start + step) := by omega
    rw [he] at this
    exact this
  rw [hcount, List.range_succ_eq_map]
  simp only [List.map_cons, Nat.zero_mul, Nat.add_zero, List.map_map]
  congr 1
  apply List.map_congr_left
  intro i _
  simp [Function.comp]
  ring

example : planSegments 0 25 10 = [(0, 10), (10, 20), (20, 25)] := by decide
example : validateAndPlan false 0 0 25 10 = .ok [(0, 10), (10, 20), (20, 25)] := rfl

theorem planSegments_nil (start stop interval : Nat) (h : stop ≤ start) :
    planSegments start stop interval = [] := by
  simp [planSegments, pyRange_nil _ _ _ h]

theorem planSegments_cons (start stop interval : Nat) (hI : 0 < interval)
    (h : start < stop) :
    planSegments start stop interval =
      (start, min (start + interval) stop) :: planSegments (start + interval) stop interval := by
  simp [planSegments, pyRange_cons _ _ _ hI h]

theorem planSegments_length (start stop interval : Nat) :
    (planSegments start stop interval).length = (stop - start + interval - 1) / interval := by
  simp [planSegments, pyRange]

theorem planSegments_mem (interval : Nat) (hI : 0 < interval) :
    ∀ d start stop, stop - start ≤ d → ∀ p ∈ planSegments start stop interval,
      start ≤ p.1 ∧ p.1 < stop ∧ p.2 = min (p.1 + interval) stop := by
  intro d
  induction d with
  | zero =>
    intro s e h p hp
    rw [planSegments_nil _ _ _ (by omega)] at hp
    cases hp
  | succ d ih =>
    intro s e h p hp
    by_cases hse : s < e
    · rw [planSegments_cons _ _ _ hI hse] at hp
      rcases List.mem_cons.mp hp with hhead | htail
      · subst hhead
        exact ⟨Nat.le_refl _, hse, rfl⟩
      · have hrec := ih (s + interval) e (by omega) p htail
        exact ⟨by omega, hrec.2.1, hrec.2.2⟩
    · rw [planSegments_nil _ _ _ (by omega)] at hp
      cases hp

theorem planSegments_chain (interval : Nat) (hI : 0 < interval) :
    ∀ d start stop, stop - start ≤ d →
      List.Chain' (fun a b : Nat × Nat => a.2 = b.1) (planSegments start stop interval) := by
  intro d
  induction d with
  | zero =>
    intro s e h
    rw [planSegments_nil _ _ _ (by omega)]
    exact List.chain'_nil
  | succ d ih =>
    intro s e h
    by_cases hse : s < e
    · rw [planSegments_cons _ _ _ hI hse]
      rw [List.chain'_cons']
      refine ⟨?_, ih (s + interval) e (by omega)⟩
      intro b hb
      by_cases hse2 : s + interval < e
      · rw [planSegments_cons _ _ _ hI hse2] at hb
        simp at hb
        subst hb
        simp
        omega
      · rw [planSegments_nil _ _ _ (by omega)] at hb
        cases hb
    · rw [planSegments_nil _ _ _ (by omega)]
      exact List.chain'_nil

theorem planSegments_pairwise (interval : Nat) (hI : 0 < interval) :
    ∀ d start stop, stop - start ≤ d →
      List.Pairwise (fun a b : Nat × Nat => a.2 ≤ b.1) (planSegments start stop interval) := by
  intro d
  induction d with
  | zero =>
    intro s e h
    rw [planSegments_nil _ _ _ (by omega)]
    exact List.Pairwise.nil
  | succ d ih =>
    intro s e h
    by_cases hse : s < e
    · rw [planSegments_cons _ _ _ hI hse]
      refine List.Pairwise.cons ?_ (ih (s + interval) e (by omega))
      intro b hb
      have := planSegments_mem interval hI (e - (s + interval)) (s + interval) e
        (Nat.le_refl _) b hb
      simp
      omega
    · rw [planSegments_nil _ _ _ (by omega)]
      exact List.Pairwise.nil

theorem planSegments_cover (interval : Nat) (hI : 0 < interval) :
    ∀ d start stop, stop - start ≤ d → ∀ t, start ≤ t → t < stop →
      ∃ p ∈ planSegments start stop interval, p.1 ≤ t ∧ t < p.2 := by
  intro d
  induction d with
  | zero =>
    intro s e h t ht1 ht2
    omega
  | succ d ih =>
    intro s e h t ht1 ht2
    have hse : s < e := by omega
    rw [planSegments_cons _ _ _ hI hse]
    by_cases hcut : t < min (s + interval) e
    · exact ⟨(s, min (s + interval) e), List.mem_cons_self _ _, ht1, hcut⟩
    · have hmin : min (s + interval) e = s + interval := by omega
      rw [hmin] at hcut
      obtain ⟨p, hp, hp1, hp2⟩ := ih (s + interval) e (by omega) t (by omega) ht2
      exact ⟨p, List.mem_cons_of_mem _ hp, hp1, hp2⟩

theorem planSegments_nonfinal (start stop I : Nat) (hI : 1 ≤ I) :
    ∀ i (q₁ q₂ : Nat × Nat), (planSegments start stop I).get? i = some q₁ →
      (planSegments start stop I).get? (i + 1) = some q₂ → q₁.2 = q₁.1 + I := by
  intro i q₁ q₂ h1 h2
  have hmem := planSegments_mem I hI (stop - start) start stop (Nat.le_refl _)
  have hchain := planSegments_chain I hI (stop - start) start stop (Nat.le_refl _)
  obtain ⟨hi1, hg1⟩ := List.get?_eq_some.mp h1
  obtain ⟨hi2, hg2⟩ := List.get?_eq_some.mp h2
  have hstep := (List.chain'_iff_get.mp hchain) i (by omega)
  rw [hg1] at hstep
  rw [hg2] at hstep
  have hm1 := hmem q₁ (by rw [← hg1]; exact List.get_mem _ _ _)
  have hm2 := hmem q₂ (by rw [← hg2]; exact List.get_mem _ _ _)
  omega

theorem pyInt_floor (q : ℚ) : pyInt q = ⌊q⌋.toNat := by
  rw [pyInt, Rat.floor_def]

theorem pyInt_natCast (n : Nat) : pyInt ((n : ℚ)) = n := by
  rw [pyInt_floor]
  simp

/-- With integral window bounds, the mixed float/int plan coincides with the
integer plan. -/
theorem planSegmentsF_natCast (m n I : Nat) :
    planSegmentsF (m : ℚ) (n : ℚ) I =
      (planSegments m n I).map (fun p => ((p.1 : ℚ), (p.2 : ℚ))) := by
  rw [planSegmentsF, planSegments, pyInt_natCast, pyInt_natCast, List.map_map]
  apply List.map_congr_left
  intro s _
  simp only [Function.comp]
  refine Prod.ext rfl ?_
  push_cast
  rfl

/-- **C2, counterexample.** At source duration 20.5 s (615 frames at 30 fps;
20.5 is exactly representable in floating point), interval 10 s and the
window disabled, `process_uploaded_file`'s loop bound is `int(20.5) = 20`
while the end clamp uses the uncast 20.5: the plan is `[(0,10),(10,20)]` —
2 segments, not the claimed `ceil(20.5/10) = 3` — and the instant 20 s of
the effective window `[0, 20.5)` is covered by no segment. -/
theorem c2_counterexample_fractional_duration :
    planSegmentsF 0 (41 / 2) 10 = [(0, 10), (10, 20)] ∧
    (planSegmentsF 0 (41 / 2) 10).length ≠ ⌈(41 / 2 : ℚ) / 10⌉₊ ∧
    ¬ ∃ p ∈ planSegmentsF 0 (41 / 2) 10, p.1 ≤ 20 ∧ (20 : ℚ) < p.2 := by
  have hint : pyInt (41 / 2) = 20 := by
    rw [pyInt_floor, show ⌊(41 / 2 : ℚ)⌋ = 20 from by norm_num]
    rfl
  have h0 : pyInt 0 = 0 := by
    rw [pyInt_floor, show ⌊(0 : ℚ)⌋ = 0 from by norm_num]
    rfl
  have hlist : planSegmentsF 0 (41 / 2) 10 = [(0, 10), (10, 20)] := by
    rw [planSegmentsF, hint, h0,
      show pyRange 0 20 10 = [0, 10] from by decide]
    simp only [List.map_cons, List.map_nil]
    norm_num [Prod.ext_iff]
  refine ⟨hlist, ?_, ?_⟩
  · rw [hlist, show ⌈(41 / 2 : ℚ) / 10⌉₊ = 3 from by norm_num [Nat.ceil_eq_iff]]
    decide
  · rw [hlist]
    rintro ⟨p, hp, hle, hlt⟩
    simp only [List.mem_cons, List.not_mem_nil, or_false] at hp
    rcases hp with h | h <;> rw [h] at hlt <;> norm_num at hlt

/-- **C2, amended.** For every effective window with integer bounds — every
URL run (the code truncates the duration to `int`), and every file run whose
duration is integral — and every interval `I ≥ 1`, the plan has
`ceil((stop-start)/I)` segments, consecutive segments are contiguous,
segments are pairwise non-overlapping, every segment lies inside
`[start, stop)` with end `min(start + I, stop)`, every segment that has a
successor has length exactly `I`, every instant of `[start, stop)` is
covered, and duration 25 s with interval 10 s yields
`[(0,10),(10,20),(20,25)]`. (For a fractional duration the loop bound is
`int(duration)` while the clamp uses the full duration, so when `I` divides
`int(duration)` the count and the coverage both fail — see the
counterexample at 20.5 s.) -/
theorem c2_plan_segments_integral_spec (startN stopN I : Nat) (hI : 1 ≤ I) :
    (planSegmentsF (startN : ℚ) (stopN : ℚ) I).length = (stopN - startN + I - 1) / I ∧
    List.Chain' (fun a b : ℚ × ℚ => a.2 = b.1) (planSegmentsF (startN : ℚ) (stopN : ℚ) I) ∧
    List.Pairwise (fun a b : ℚ × ℚ => a.2 ≤ b.1) (planSegmentsF (startN : ℚ) (stopN : ℚ) I) ∧
    (∀ p ∈ planSegmentsF (startN : ℚ) (stopN : ℚ) I,
      (startN : ℚ) ≤ p.1 ∧ p.1 < p.2 ∧ p.2 ≤ (stopN : ℚ) ∧
        p.2 = min (p.1 + (I : ℚ)) (stopN : ℚ)) ∧
    (∀ i (p₁ p₂ : ℚ × ℚ), (planSegmentsF (startN : ℚ) (stopN : ℚ) I).get? i = some p₁ →
      (planSegmentsF (startN : ℚ) (stopN : ℚ) I).get? (i + 1) = some p₂ →
      p₁.2 = p₁.1 + (I : ℚ)) ∧
    (∀ t : ℚ, (startN : ℚ) ≤ t → t < (stopN : ℚ) →
      ∃ p ∈ planSegmentsF (startN : ℚ) (stopN : ℚ) I, p.1 ≤ t ∧ t < p.2) ∧
    planSegmentsF ((0 : Nat) : ℚ) ((25 : Nat) : ℚ) 10 = [(0, 10), (10, 20), (20, 25)] := by
  have hbridge := planSegmentsF_natCast startN stopN I
  have hmem := planSegments_mem I hI (stopN - startN) startN stopN (Nat.le_refl _)
  refine ⟨?_, ?_, ?_, ?_, ?_, ?_, ?_⟩
  · rw [hbridge, List.length_map, planSegments_length]
  · rw [hbridge, List.chain'_map]
    refine (planSegments_chain I hI (stopN - startN) startN stopN (Nat.le_refl _)).imp ?_
    intro a b hab
    dsimp only
    exact_mod_cast hab
  · rw [hbridge, List.pairwise_map]
    refine (planSegments_pairwise I hI (stopN - startN) startN stopN (Nat.le_refl _)).imp ?_
    intro a b hab
    dsimp only
    exact_mod_cast hab
  · intro p hp
    rw [hbridge] at hp
    obtain ⟨q, hq, rfl⟩ := List.mem_map.mp hp
    obtain ⟨h1, h2, h3⟩ := hmem q hq
    dsimp only
    refine ⟨by exact_mod_cast h1, ?_, ?_, ?_⟩
    · have : q.1 < q.2 := by omega
      exact_mod_cast this
    · have : q.2 ≤ stopN := by omega
      exact_mod_cast this
    · show ((q.2 : Nat) : ℚ) = _
      rw [h3]
      push_cast
      rfl
  · intro i p₁ p₂ h1 h2
    rw [hbridge] at h1 h2
    rw [List.get?_map] at h1 h2
    obtain ⟨q₁, hq1, hp1⟩ := Option.map_eq_some'.mp h1
    obtain ⟨q₂, hq2, hp2⟩ := Option.map_eq_some'.mp h2
    have := planSegments_nonfinal startN stopN I hI i q₁ q₂ hq1 hq2
    rw [← hp1]
    dsimp only
    exact_mod_cast this
  · intro t ht1 ht2
    have hfl : (startN : ℤ) ≤ ⌊t⌋ := Int.le_floor.mpr (by exact_mod_cast ht1)
    have hflt : ⌊t⌋ < (stopN : ℤ) := by
      have ha : ((⌊t⌋ : ℤ) : ℚ) < (stopN : ℚ) := lt_of_le_of_lt (Int.floor_le t) ht2
      exact_mod_cast ha
    have hjcast : ((⌊t⌋.toNat : ℤ)) = ⌊t⌋ := Int.toNat_of_nonneg (by omega)
    have hsj : startN ≤ ⌊t⌋.toNat := by omega
    have hjs : ⌊t⌋.toNat < stopN := by omega
    obtain ⟨q, hq, hq1, hq2⟩ := planSegments_cover I hI (stopN - startN) startN stopN
      (Nat.le_refl _) ⌊t⌋.toNat hsj hjs
    refine ⟨((q.1 : ℚ), (q.2 : ℚ)), ?_, ?_, ?_⟩
    · rw [hbridge]
      exact List.mem_map.mpr ⟨q, hq, rfl⟩
    · have ha : (q.1 : ℚ) ≤ ((⌊t⌋.toNat : Nat) : ℚ) := by exact_mod_cast hq1
      have hb : ((⌊t⌋.toNat : Nat) : ℚ) = ((⌊t⌋ : ℤ) : ℚ) := by exact_mod_cast hjcast
      have hc := Int.floor_le t
      rw [hb] at ha
      exact le_trans ha hc
    · have ha : ((⌊t⌋.toNat : Nat) : ℚ) + 1 ≤ (q.2 : ℚ) := by exact_mod_cast hq2
      have hb : ((⌊t⌋.toNat : Nat) : ℚ) = ((⌊t⌋ : ℤ) : ℚ) := by exact_mod_cast hjcast
      have hc := Int.lt_floor_add_one t
      rw [hb] at ha
      exact lt_of_lt_of_le hc ha
  · rw [planSegmentsF_natCast 0 25 10,
      show planSegments 0 25 10 = [(0, 10), (10, 20), (20, 25)] from by decide]
    simp only [List.map_cons, List.map_nil]
    norm_num

/-- Witness for the amended C2 at `start = 0`, `stop = 25`, `I = 10`. -/
theorem c2_plan_segments_integral_spec_witness :
    (1 ≤ 10) ∧
    (planSegmentsF ((0 : Nat) : ℚ) ((25 : Nat) : ℚ) 10).length = (25 - 0 + 10 - 1) / 10 :=
  ⟨by decide, (c2_plan_segments_integral_spec 0 25 10 (by decide)).1⟩

/-- With the analysis window enabled, the validation-and-planning prefix is
equivalent to: compute the effective end (`duration` if the configured end is
`0`, else `min(end, duration)`), error out when `start ≥` that effective end,
and otherwise plan segments over `[start, effective end)`. -/
theorem validateAndPlan_true_eq (startT endT duration interval : Nat) :
    validateAndPlan true startT endT duration interval =
      (if specEffectiveEnd endT duration ≤ startT then
        .error "Start time must be less than end time"
      else .ok (planSegments startT (specEffectiveEnd endT duration) interval)) := by
  have he : (if (if endT = 0 then duration else endT) > duration then duration
      else (if endT = 0 then duration else endT)) = specEffectiveEnd endT duration := by
    simp only [specEffectiveEnd, Nat.min_def]
    split_ifs <;> omega
  simp only [validateAndPlan, if_true, ge_iff_le]
  rw [he]

/-- **C6.** For every enabled analysis window, the effective end used for
segmentation equals the source duration when the configured end is `0`, and
`min(configured end, duration)` otherwise; the pipeline then validates
`start` against that effective end and plans segments up to it. -/
theorem c6_effective_end_rule (startT endT duration interval : Nat) :
    specEffectiveEnd 0 duration = duration ∧
    (endT ≠ 0 → specEffectiveEnd endT duration = min endT duration) ∧
    validateAndPlan true startT endT duration interval =
      (if specEffectiveEnd endT duration ≤ startT then
        .error "Start time must be less than end time"
      else .ok (planSegments startT (specEffectiveEnd endT duration) interval)) := by
  refine ⟨rfl, ?_, validateAndPlan_true_eq startT endT duration interval⟩
  intro h
  simp [specEffectiveEnd, h]

/-- Witness for C6 at a configured end beyond the duration: the effective
end is clamped to the duration. -/
theorem c6_effective_end_rule_witness :
    (7 ≠ 0) ∧ specEffectiveEnd 7 5 = min 7 5 :=
  ⟨by decide, (c6_effective_end_rule 0 7 5 2).2.1 (by decide)⟩

/-- **C5.** For every run with an enabled analysis window whose start is at
or beyond the effective end, validation fails with the start/end error and no
segment list is ever produced (so no segment is materialized and no record is
persisted). -/
theorem c5_window_validation_stops (startT endT duration interval : Nat)
    (h : specEffectiveEnd endT duration ≤ startT) :
    validateAndPlan true startT endT duration interval =
      .error "Start time must be less than end time" ∧
    ∀ segs, validateAndPlan true startT endT duration interval ≠ .ok segs := by
  have heq := validateAndPlan_true_eq startT endT duration interval
  rw [if_pos h] at heq
  exact ⟨heq, fun segs hcon => by rw [heq] at hcon; cases hcon⟩

/-- Witness for C5: an enabled window with `start = 5`, configured
`end = 5`, duration `10` is rejected. -/
theorem c5_window_validation_stops_witness :
    specEffectiveEnd 5 10 ≤ 5 ∧
    validateAndPlan true 5 5 10 2 = .error "Start time must be less than end time" :=
  ⟨by decide, (c5_window_validation_stops 5 5 10 2 (by decide)).1⟩

/-! ## Persisted analysis records (`execute_video_processing`,
`load_segment_summary`, `load_all_analyses` in
`src/utils/video_processing.py`)

The analysis directory is modelled as an association list from filenames to
parsed JSON objects; a JSON object is an association list from keys to
values (strings or numbers are the only value shapes these records use). -/

/-- A JSON scalar as used by the persisted per-segment records. -/
inductive JVal where
  | str : String → JVal
  | num : Nat → JVal
deriving DecidableEq, Repr

/-- A parsed JSON object: key/value pairs. -/
abbrev JObj := List (String × JVal)

/-- A directory listing with each file's parsed JSON content. -/
abbrev FileSys := List (String × JObj)

/-- Python `dict.get(key, default)`. -/
def jsonGetD (o : JObj) (key : String) (dflt : JVal) : JVal :=
  (o.lookup key).getD dflt

/-- Python `str.endswith(suffix)`: the suffix's characters end the string's
characters. -/
def hasSuffixPy (s suffix : String) : Bool :=
  decide (suffix.data <:+ s.data)

/-- The per-segment analysis filename
`f"segment_{segment_num+1}_analysis.json"` written by
`execute_video_processing` (`src/utils/video_processing.py` line 178);
`k` is the 1-based segment number. -/
def segmentFileName (k : Nat) : String :=
  "segment_" ++ toString k ++ "_analysis.json"

/-- The JSON object persisted for one segment by `execute_video_processing`
(`src/utils/video_processing.py` lines 179-186): keys `segment` (1-based),
`start_time`, `end_time`, `analysis` — and no `summary` key. -/
def persistRecord (segmentNum startT endT : Nat) (analysis : String) : JObj :=
  [("segment", .num (segmentNum + 1)),
   ("start_time", .num startT),
   ("end_time", .num endT),
   ("analysis", .str analysis)]

/-- Code-point-wise lexicographic `≤` on code-point lists: how Python
compares two strings. -/
def lexLe : List Nat → List Nat → Bool
  | [], _ => true
  | _ :: _, [] => false
  | a :: as, b :: bs =>
    if a < b then true
    else if b < a then false
    else lexLe as bs

/-- Python string `≤`: lexicographic comparison of code points. -/
def pyStrLe (a b : String) : Prop :=
  lexLe (a.data.map Char.toNat) (b.data.map Char.toNat) = true

instance : DecidableRel pyStrLe := fun a b => by
  unfold pyStrLe
  infer_instance

/-- Python `sorted` on strings: the ascending code-point-lexicographic
reordering (any sorting algorithm computes the same list, the unique
`pyStrLe`-sorted permutation). -/
def pySorted (names : List String) : List String :=
  List.insertionSort pyStrLe names

/-- The sorted, filtered filename list
`sorted([f for f in os.listdir(dir) if f.endswith('_analysis.json')])`
shared by `load_segment_summary` (line 104) and `load_all_analyses`
(line 209) in `src/utils/video_processing.py`. -/
def analysisFiles (dir : FileSys) : List String :=
  pySorted ((dir.map Prod.fst).filter (fun f => hasSuffixPy f "_analysis.json"))

/-- `load_all_analyses` (`src/utils/video_processing.py` lines 205-216):
sort the matching filenames, open each and collect the parsed objects. -/
def loadAllAnalyses (dir : FileSys) : List JObj :=
  (analysisFiles dir).filterMap (fun name => dir.lookup name)

/-- `load_segment_summary` (`src/utils/video_processing.py` lines 101-112):
for `segment_num > 0`, open the `(segment_num - 1)`-th sorted analysis file
and return its `summary` field, defaulting to `''` on a missing key, an
unreadable file, or any error. -/
def loadSegmentSummary (dir : FileSys) (segmentNum : Nat) : JVal :=
  let files := analysisFiles dir
  if segmentNum > 0 ∧ segmentNum ≤ files.length then
    match files.get? (segmentNum - 1) with
    | some name =>
      match dir.lookup name with
      | some obj => jsonGetD obj "summary" (.str "")
      | none => .str ""
    | none => .str ""
  else
    .str ""

/-! ## The analysis request text (`analyze_video` in `src/utils/analysis.py`)

`analyze_video` appends one text term to the image terms; the previous
segment's summary appears in it only when `previous_summary` is truthy. -/

/-- Python truthiness of the values `load_segment_summary` can return. -/
def jvalTruthy : JVal → Bool
  | .str s => s ≠ ""
  | .num n => n ≠ 0

/-- Rendering of a JSON scalar into an f-string. -/
def jvalStr : JVal → String
  | .str s => s
  | .num n => toString n

/-- The fixed first sentence of the text term
(`src/utils/analysis.py` line 19). -/
def segmentContextBase (startT endT totalDuration : Nat) : String :=
  "\nAnalyzing segment from " ++ toString startT ++ " to " ++ toString endT ++
    " seconds of a " ++ toString totalDuration ++ " second video."

/-- The text term of the analysis request built by `analyze_video`
(`src/utils/analysis.py` lines 19-25): the base sentence, then
`"\nPrevious segment summary: ..."` only if `previous_summary` is truthy,
then `"\nAudio transcription: ..."` only if `transcription` is truthy. -/
def segmentContext (previousSummary : JVal) (transcription : String)
    (startT endT totalDuration : Nat) : String :=
  let ctx := segmentContextBase startT endT totalDuration
  let ctx := if jvalTruthy previousSummary then
      ctx ++ "\nPrevious segment summary: " ++ jvalStr previousSummary
    else ctx
  if transcription ≠ "" then ctx ++ "\nAudio transcription: " ++ transcription
  else ctx

theorem lookup_mem {α β : Type} [BEq α] (l : List (α × β)) (k : α) (v : β)
    (h : l.lookup k = some v) : ∃ key, (key, v) ∈ l := by
  induction l with
  | nil => simp [List.lookup] at h
  | cons e rest ih =>
    rw [List.lookup] at h
    split at h
    · cases h
      exact ⟨e.1, List.mem_cons_self _ _⟩
    · obtain ⟨key, hk⟩ := ih h
      exact ⟨key, List.mem_cons_of_mem _ hk⟩

theorem jsonGetD_persistRecord_summary (n s t : Nat) (a : String) :
    jsonGetD (persistRecord n s t a) "summary" (.str "") = .str "" := rfl

/-- **C1.** Against any analysis directory whose files were written by
`execute_video_processing` (which persists the keys
`segment`/`start_time`/`end_time`/`analysis` and never `summary`),
`load_segment_summary` returns `''` for every segment index `k` — including
`k > 0` with a persisted record for `k-1` — so the text term `analyze_video`
builds never contains a `Previous segment summary` part: the claimed
context-carry does not happen. -/
theorem c1_previous_summary_never_included (dir : FileSys) (k : Nat)
    (hdir : ∀ e ∈ dir, ∃ n s t a, e.2 = persistRecord n s t a) :
    loadSegmentSummary dir k = .str "" ∧
    ∀ tr startT endT dur,
      segmentContext (loadSegmentSummary dir k) tr startT endT dur =
        (if tr ≠ "" then
          segmentContextBase startT endT dur ++ "\nAudio transcription: " ++ tr
        else segmentContextBase startT endT dur) := by
  have h1 : loadSegmentSummary dir k = .str "" := by
    simp only [loadSegmentSummary]
    split
    · split
      · split
        · next obj hobj =>
          obtain ⟨key, hkey⟩ := lookup_mem _ _ _ hobj
          obtain ⟨n, s, t, a, ha⟩ := hdir (key, obj) hkey
          rw [show obj = persistRecord n s t a from ha]
          exact jsonGetD_persistRecord_summary n s t a
        · rfl
      · rfl
    · rfl
  refine ⟨h1, ?_⟩
  intro tr startT endT dur
  rw [h1]
  simp [segmentContext, jvalTruthy]

/-- Witness for C1: a directory holding exactly the record persisted for
segment 0, queried at `k = 1`. -/
theorem c1_previous_summary_never_included_witness :
    (∀ e ∈ ([(segmentFileName 1, persistRecord 0 0 10 "analysis of segment one")] : FileSys),
      ∃ n s t a, e.2 = persistRecord n s t a) ∧
    loadSegmentSummary
      [(segmentFileName 1, persistRecord 0 0 10 "analysis of segment one")] 1 = .str "" := by
  have hdir : ∀ e ∈ ([(segmentFileName 1, persistRecord 0 0 10 "analysis of segment one")] : FileSys),
      ∃ n s t a, e.2 = persistRecord n s t a := by
    intro e he
    rw [List.mem_singleton] at he
    exact ⟨0, 0, 10, "analysis of segment one", by rw [he]⟩
  exact ⟨hdir,
    (c1_previous_summary_never_included
      [(segmentFileName 1, persistRecord 0 0 10 "analysis of segment one")] 1 hdir).1⟩

theorem lexLe_total : ∀ as bs : List Nat, lexLe as bs = true ∨ lexLe bs as = true := by
  intro as
  induction as with
  | nil => intro bs; left; rfl
  | cons a as ih =>
    intro bs
    cases bs with
    | nil => right; rfl
    | cons b bs =>
      simp only [lexLe]
      rcases Nat.lt_trichotomy a b with h | h | h
      · left; simp [h]
      · subst h
        simpa [Nat.lt_irrefl] using ih bs
      · right; simp [h, Nat.lt_asymm h]

theorem lexLe_trans : ∀ as bs cs : List Nat,
    lexLe as bs = true → lexLe bs cs = true → lexLe as cs = true := by
  intro as
  induction as with
  | nil => intro bs cs _ _; rfl
  | cons a as ih =>
    intro bs cs h1 h2
    cases bs with
    | nil => simp [lexLe] at h1
    | cons b bs =>
      cases cs with
      | nil => simp [lexLe] at h2
      | cons c cs =>
        simp only [lexLe] at h1 h2 ⊢
        split_ifs at h1 h2 ⊢ <;> try omega
        all_goals try rfl
        all_goals first
          | (exfalso; omega)
          | (apply ih bs cs <;> first | assumption | omega)

theorem lexLe_antisymm : ∀ as bs : List Nat,
    lexLe as bs = true → lexLe bs as = true → as = bs := by
  intro as
  induction as with
  | nil =>
    intro bs h1 h2
    cases bs with
    | nil => rfl
    | cons b bs => simp [lexLe] at h2
  | cons a as ih =>
    intro bs h1 h2
    cases bs with
    | nil => simp [lexLe] at h1
    | cons b bs =>
      simp only [lexLe] at h1 h2
      split_ifs at h1 h2 <;> try omega
      have hab : a = b := by omega
      rw [hab, ih bs h1 h2]

theorem char_toNat_injective : Function.Injective Char.toNat :=
  fun _ _ h => Char.ext (UInt32.ext h)

instance : IsTotal String pyStrLe :=
  ⟨fun _ _ => lexLe_total _ _⟩

instance : IsTrans String pyStrLe :=
  ⟨fun _ _ _ h1 h2 => lexLe_trans _ _ _ h1 h2⟩

instance : IsAntisymm String pyStrLe :=
  ⟨fun a b h1 h2 => by
    have hdata := lexLe_antisymm _ _ h1 h2
    have hinj : Function.Injective (List.map Char.toNat) :=
      List.map_injective_iff.mpr char_toNat_injective
    exact String.ext (hinj hdata)⟩

theorem lookup_eq_of_mem_of_nodup {β : Type} (l : List (String × β)) (k : String) (v : β)
    (hnodup : (l.map Prod.fst).Nodup) (hmem : (k, v) ∈ l) : l.lookup k = some v := by
  induction l with
  | nil => cases hmem
  | cons e rest ih =>
    rw [List.lookup]
    rcases List.mem_cons.mp hmem with he | hrest
    · rw [← he]
      simp
    · have hk_rest : k ∈ rest.map Prod.fst :=
        List.mem_map.mpr ⟨(k, v), hrest, rfl⟩
      have hne : k ≠ e.1 := by
        intro hcon
        rw [List.map_cons, List.nodup_cons] at hnodup
        exact hnodup.1 (hcon ▸ hk_rest)
      have : (k == e.1) = false := beq_false_of_ne hne
      rw [this]
      exact ih (by rw [List.map_cons, List.nodup_cons] at hnodup; exact hnodup.2) hrest

theorem filterMap_lookup_pairs {β : Type} (listing : List (String × β)) :
    ∀ pairs : List (String × β), (∀ p ∈ pairs, listing.lookup p.1 = some p.2) →
      (pairs.map Prod.fst).filterMap (fun name => listing.lookup name) = pairs.map Prod.snd := by
  intro pairs
  induction pairs with
  | nil => intro _; rfl
  | cons p rest ih =>
    intro h
    rw [List.map_cons, List.filterMap_cons, h p (List.mem_cons_self _ _)]
    rw [ih (fun q hq => h q (List.mem_cons_of_mem _ hq))]
    rfl

/-- If the directory holds exactly the pairs `(names[i], recs[i])` — in any
listing order — with distinct, `_analysis.json`-suffixed,
lexicographically sorted names, then `load_all_analyses` returns `recs` in
that order. -/
theorem loadAllAnalyses_of_perm (names : List String) (recs : List JObj) (listing : FileSys)
    (hlen : names.length = recs.length)
    (hperm : listing.Perm (names.zip recs))
    (hnodup : names.Nodup)
    (hend : ∀ nm ∈ names, hasSuffixPy nm "_analysis.json" = true)
    (hsorted : List.Sorted pyStrLe names) :
    loadAllAnalyses listing = recs := by
  have hmapfst : (listing.map Prod.fst).Perm names := by
    have h := hperm.map Prod.fst
    rwa [List.map_fst_zip _ _ (le_of_eq hlen)] at h
  have hfiltereq : names.filter (fun f => hasSuffixPy f "_analysis.json") = names :=
    List.filter_eq_self.mpr hend
  have hsort_perm : (analysisFiles listing).Perm names := by
    unfold analysisFiles pySorted
    refine (List.perm_insertionSort pyStrLe _).trans ?_
    refine (hmapfst.filter _).trans ?_
    rw [hfiltereq]
  have hsort_sorted : List.Sorted pyStrLe (analysisFiles listing) :=
    List.sorted_insertionSort pyStrLe _
  have hnames_eq : analysisFiles listing = names :=
    List.eq_of_perm_of_sorted hsort_perm hsort_sorted hsorted
  have hkeysnodup : (listing.map Prod.fst).Nodup := hmapfst.nodup_iff.mpr hnodup
  have hlookup : ∀ p ∈ names.zip recs, listing.lookup p.1 = some p.2 := by
    intro p hp
    exact lookup_eq_of_mem_of_nodup listing p.1 p.2 hkeysnodup
      (hperm.mem_iff.mpr (by rwa [Prod.mk.eta]))
  have hfm := filterMap_lookup_pairs listing (names.zip recs) hlookup
  rw [List.map_fst_zip _ _ (le_of_eq hlen), List.map_snd_zip _ _ (ge_of_eq hlen)] at hfm
  rw [loadAllAnalyses, hnames_eq, hfm]

/-- The filenames a run of `n` segments persists, in persisted (temporal)
order: `segment_1_analysis.json`, ..., `segment_n_analysis.json`. -/
def canonNames (n : Nat) : List String :=
  (List.range n).map (fun i => segmentFileName (i + 1))

/-- A directory of `n` records persisted in segment order, listed here in
exactly that order. -/
def persistedDir (n : Nat) : FileSys :=
  (List.range n).map (fun i =>
    (segmentFileName (i + 1), persistRecord i (i * 10) ((i + 1) * 10) "a"))

/-- **C3, counterexample.** With 10 persisted records — even when the
directory listing itself is in segment order — `load_all_analyses` does not
return the records in segment order: the lexical filename sort places
`segment_10_analysis.json` before `segment_2_analysis.json`. -/
theorem c3_counterexample_ten_segments :
    loadAllAnalyses (persistedDir 10)
      ≠ (List.range 10).map (fun i => persistRecord i (i * 10) ((i + 1) * 10) "a") := by
  decide

/-- **C3, amended.** For every run of at most 9 segments (so all 1-based
segment numbers are single digits and the lexical filename order agrees with
numeric order), `load_all_analyses` returns the persisted records in segment
order, for every filesystem directory listing order (any permutation of the
persisted name/record pairs). -/
theorem c3_load_order_upto_nine (n : Nat) (hn : n ≤ 9) (recs : List JObj)
    (hlen : recs.length = n) (listing : FileSys)
    (hperm : listing.Perm ((canonNames n).zip recs)) :
    loadAllAnalyses listing = recs := by
  have hlen2 : (canonNames n).length = recs.length := by
    simp [canonNames, hlen]
  refine loadAllAnalyses_of_perm (canonNames n) recs listing hlen2 hperm ?_ ?_ ?_
  · interval_cases n <;> decide
  · interval_cases n <;> decide
  · interval_cases n <;> decide

/-- Witness for the amended C3: three records listed on disk in the order
3, 1, 2 are still loaded in segment order 1, 2, 3. -/
theorem c3_load_order_upto_nine_witness :
    (3 ≤ 9) ∧
    loadAllAnalyses
      [(segmentFileName 3, persistRecord 2 20 25 "c"),
       (segmentFileName 1, persistRecord 0 0 10 "a"),
       (segmentFileName 2, persistRecord 1 10 20 "b")] =
      [persistRecord 0 0 10 "a", persistRecord 1 10 20 "b", persistRecord 2 20 25 "c"] :=
  ⟨by decide,
    c3_load_order_upto_nine 3 (by decide)
      [persistRecord 0 0 10 "a", persistRecord 1 10 20 "b", persistRecord 2 20 25 "c"]
      (by decide)
      [(segmentFileName 3, persistRecord 2 20 25 "c"),
       (segmentFileName 1, persistRecord 0 0 10 "a"),
       (segmentFileName 2, persistRecord 1 10 20 "b")]
      (by decide)⟩

/-! ## Audio transcription (`process_audio` in `src/utils/video_processing.py`)

`process_audio` has two nested `try` blocks. The outer one wraps opening the
clip and the audio-track check; its `except` sets the result to the sentinel
`"Audio processing failed."`. The inner one wraps writing the audio file and
the external transcription call; its `except` only logs and deletes the
partial audio file, leaving `transcription_text` at its initial `''`.
The external effects are passed as `Except`-valued arguments (`.error`
models the call raising). -/

/-- The opened clip: whether the container has an audio track. -/
structure VideoClip where
  hasAudio : Bool

/-- `process_audio` (`src/utils/video_processing.py` lines 57-99). -/
def processAudio (clip : Except String VideoClip) (writeAudio : Except String Unit)
    (transcribe : Except String String) : String :=
  match clip with
  | .error _ => "Audio processing failed."
  | .ok c =>
    if !c.hasAudio then "No audio found in this segment."
    else
      match writeAudio with
      | .error _ => ""
      | .ok _ =>
        match transcribe with
        | .error _ => ""
        | .ok t => t

/-- **C4, counterexample.** A segment whose external transcription call
raises makes `process_audio` return `''`, not the sentinel
`"Audio processing failed."`: the inner `except` only logs and leaves
`transcription_text` empty, so the claim's promised sentinel is not
produced. -/
theorem c4_counterexample_transcription_failure :
    processAudio (.ok ⟨true⟩) (.ok ()) (.error "service unavailable") = "" ∧
    ("" : String) ≠ "Audio processing failed." := by
  exact ⟨rfl, by decide⟩

/-- **C4, amended.** `process_audio` never propagates an exception: when
opening the video clip raises it returns the sentinel
`"Audio processing failed."`; when the audio-file write or the external
transcription call raises it returns `''`; a segment without an audio track
yields `"No audio found in this segment."`. In every case a string is
returned, so a transcription failure never aborts the segment's analysis. -/
theorem c4_process_audio_degrades (clip : Except String VideoClip)
    (writeAudio : Except String Unit) (transcribe : Except String String) :
    (∀ msg, clip = .error msg → processAudio clip writeAudio transcribe = "Audio processing failed.") ∧
    (∀ c, clip = .ok c → c.hasAudio = false →
      processAudio clip writeAudio transcribe = "No audio found in this segment.") ∧
    (∀ c msg, clip = .ok c → c.hasAudio = true → writeAudio = .error msg →
      processAudio clip writeAudio transcribe = "") ∧
    (∀ c msg, clip = .ok c → c.hasAudio = true → writeAudio = .ok () → transcribe = .error msg →
      processAudio clip writeAudio transcribe = "") ∧
    (∀ c t, clip = .ok c → c.hasAudio = true → writeAudio = .ok () → transcribe = .ok t →
      processAudio clip writeAudio transcribe = t) := by
  refine ⟨?_, ?_, ?_, ?_, ?_⟩
  · intro msg h; subst h; rfl
  · intro c h hc; subst h; simp [processAudio, hc]
  · intro c msg h hc hw; subst h; subst hw; simp [processAudio, hc]
  · intro c msg h hc hw ht; subst h; subst hw; subst ht; simp [processAudio, hc]
  · intro c t h hc hw ht; subst h; subst hw; subst ht; simp [processAudio, hc]

/-- Witness for the amended C4 at a concrete failing transcription call. -/
theorem c4_process_audio_degrades_witness :
    (Except.ok () : Except String Unit) = .ok () ∧
    processAudio (.ok ⟨true⟩) (.ok ()) (.error "boom") = "" :=
  ⟨rfl, (c4_process_audio_degrades (.ok ⟨true⟩) (.ok ()) (.error "boom")).2.2.2.1
    ⟨true⟩ "boom" rfl rfl rfl rfl⟩

/-! ## The analysis cache (`src/utils/analysis_cache.py`)

The persisted cache is a JSON map from fingerprint strings to entry objects;
lookups only read the entry's `analysis_dir` field, so an entry is modelled
by that directory string. The hash functions (`hashlib.md5`) and the
filesystem existence check (`os.path.exists`) are opaque externals, passed
as function arguments. -/

/-- An uploaded file object: `name` and raw byte `content`
(`file.getvalue()`). -/
structure UploadFile where
  name : String
  content : List Nat

/-- `check_video_analyzed` (`src/utils/analysis_cache.py` lines 59-92):
`None` for a `None` file; otherwise look the content hash up in the cache
and return the stored directory only if it still exists on disk. -/
def checkVideoAnalyzed (hashFn : List Nat → String) (file : Option UploadFile)
    (cache : List (String × String)) (dirExists : String → Bool) : Option String :=
  match file with
  | none => none
  | some f =>
    match cache.lookup (hashFn f.content) with
    | some dir => if dirExists dir then some dir else none
    | none => none

/-- `check_url_analyzed` (`src/utils/analysis_cache.py` lines 125-151):
`None` for a falsy URL; otherwise hash `f"{url}_{start_time}_{end_time}"`,
look it up, and return the stored directory only if it still exists. -/
def checkUrlAnalyzed (hashFn : String → String) (url : String) (startT endT : Nat)
    (cache : List (String × String)) (dirExists : String → Bool) : Option String :=
  if url = "" then none
  else
    match cache.lookup (hashFn (url ++ "_" ++ toString startT ++ "_" ++ toString endT)) with
    | some dir => if dirExists dir then some dir else none
    | none => none

/-- Python `dict` assignment `cache[k] = v`: replace the value in place if
the key exists, append the pair otherwise. -/
def dictInsert : List (String × String) → String → String → List (String × String)
  | [], k, v => [(k, v)]
  | (k', v') :: rest, k, v =>
    if k' = k then (k, v) :: rest else (k', v') :: dictInsert rest k v

/-- `register_video_analysis` (`src/utils/analysis_cache.py` lines 94-123):
returns immediately on a `None` file, otherwise upserts
`hash(content) ↦ analysis_dir` and saves the cache. The function's result is
the persisted cache map. -/
def registerVideoAnalysis (hashFn : List Nat → String) (file : Option UploadFile)
    (analysisDir : String) (cache : List (String × String)) : List (String × String) :=
  match file with
  | none => cache
  | some f => dictInsert cache (hashFn f.content) analysisDir

/-- **C7.** For every fingerprint, cache lookup returns absent both when
there is no entry and when the entry's referenced directory no longer exists
on disk, and any returned path is a present entry whose directory exists —
never a stale path — for `check_video_analyzed` and `check_url_analyzed`
alike (both are total functions: no exception on a dangling reference). -/
theorem c7_cache_self_healing (hashF : List Nat → String) (hashU : String → String)
    (f : UploadFile) (url : String) (startT endT : Nat)
    (cache : List (String × String)) (dirExists : String → Bool) :
    (cache.lookup (hashF f.content) = none →
      checkVideoAnalyzed hashF (some f) cache dirExists = none) ∧
    (∀ dir, cache.lookup (hashF f.content) = some dir → dirExists dir = false →
      checkVideoAnalyzed hashF (some f) cache dirExists = none) ∧
    (∀ dir, checkVideoAnalyzed hashF (some f) cache dirExists = some dir →
      cache.lookup (hashF f.content) = some dir ∧ dirExists dir = true) ∧
    (url ≠ "" →
      (cache.lookup (hashU (url ++ "_" ++ toString startT ++ "_" ++ toString endT)) = none →
        checkUrlAnalyzed hashU url startT endT cache dirExists = none) ∧
      (∀ dir,
        cache.lookup (hashU (url ++ "_" ++ toString startT ++ "_" ++ toString endT)) = some dir →
        dirExists dir = false → checkUrlAnalyzed hashU url startT endT cache dirExists = none) ∧
      (∀ dir, checkUrlAnalyzed hashU url startT endT cache dirExists = some dir →
        cache.lookup (hashU (url ++ "_" ++ toString startT ++ "_" ++ toString endT)) = some dir ∧
        dirExists dir = true)) := by
  refine ⟨?_, ?_, ?_, ?_⟩
  · intro h
    simp [checkVideoAnalyzed, h]
  · intro dir h hd
    simp [checkVideoAnalyzed, h, hd]
  · intro dir h
    simp only [checkVideoAnalyzed] at h
    split at h
    · split at h
      · next hex => cases h; exact ⟨by assumption, hex⟩
      · cases h
    · cases h
  · intro hurl
    refine ⟨?_, ?_, ?_⟩
    · intro h
      simp [checkUrlAnalyzed, hurl, h]
    · intro dir h hd
      simp [checkUrlAnalyzed, hurl, h, hd]
    · intro dir h
      simp only [checkUrlAnalyzed, if_neg hurl] at h
      split at h
      · split at h
        · next hex => cases h; exact ⟨by assumption, hex⟩
        · cases h
      · cases h

/-- Witness for C7: a cached entry whose directory was deleted externally is
reported absent. -/
theorem c7_cache_self_healing_witness :
    List.lookup "h" [("h", "video/x_analysis")] = some "video/x_analysis" ∧
    (fun _ : String => false) "video/x_analysis" = false ∧
    checkVideoAnalyzed (fun _ => "h") (some ⟨"a.mp4", [1, 2, 3]⟩)
      [("h", "video/x_analysis")] (fun _ => false) = none :=
  ⟨rfl, rfl,
    (c7_cache_self_healing (fun _ => "h") (fun s => s) ⟨"a.mp4", [1, 2, 3]⟩ "" 0 0
      [("h", "video/x_analysis")] (fun _ => false)).2.1 "video/x_analysis" rfl rfl⟩

/-- **C10.** Called with a `None` file object, `check_video_analyzed`
returns `None` and `register_video_analysis` leaves the persisted
fingerprint map unchanged; neither raises. -/
theorem c10_none_file_noop (hashFn : List Nat → String) (analysisDir : String)
    (cache : List (String × String)) (dirExists : String → Bool) :
    checkVideoAnalyzed hashFn none cache dirExists = none ∧
    registerVideoAnalysis hashFn none analysisDir cache = cache :=
  ⟨rfl, rfl⟩

/-! ## Chat context assembly (`handle_chat_input` in
`src/components/chat.py`, `chat_with_video_analysis` in
`src/utils/analysis.py`)

A stored record as consumed by the chat path: the keys
`segment`/`start_time`/`end_time`/`analysis` that
`chat_with_video_analysis` indexes. -/

structure SegRecord where
  segment : Nat
  start_time : Nat
  end_time : Nat
  analysis : String
deriving DecidableEq, Repr

/-- `handle_chat_input` (`src/components/chat.py` lines 280-281):
`analyses[:max_context] if max_context < len(analyses) else analyses`. -/
def limitedAnalyses (analyses : List SegRecord) (maxContext : Nat) : List SegRecord :=
  if maxContext < analyses.length then analyses.take maxContext else analyses

/-- One segment's block in the chat context
(`src/utils/analysis.py` lines 72-74). -/
def segmentBlock (a : SegRecord) : String :=
  "Segment " ++ toString a.segment ++ " (" ++ toString a.start_time ++ "-" ++
    toString a.end_time ++ " seconds):\n" ++ a.analysis ++ "\n\n"

/-- The context string `chat_with_video_analysis` builds
(`src/utils/analysis.py` lines 48-74): header, optional overall summary
(whose text comes back from the external summarization call, passed here as
`summaryResponse`), then one block per record in list order. -/
def chatContext (analyses : List SegRecord) (summarizeFirst : Bool)
    (summaryResponse : String) : String :=
  let base := "Video Analysis Context:\n\n"
  let base := if summarizeFirst && decide (analyses.length > 1) then
      base ++ "Overall Summary:\n" ++ summaryResponse ++ "\n\n"
    else base
  analyses.foldl (fun acc a => acc ++ segmentBlock a) base

/-- **C8.** For every stored record list and every `max_context` limit `m`
smaller than the list length, the records handed to the context builder are
exactly the first `m` in temporal order: the truncation is a prefix, has
length `m`, agrees with the original list position-by-position below `m`,
contains no record from position `m` onward, and the built chat context is
the one built from that prefix. -/
theorem c8_chat_context_truncation (analyses : List SegRecord) (m : Nat)
    (hm : m < analyses.length) (sf : Bool) (resp : String) :
    limitedAnalyses analyses m = analyses.take m ∧
    (limitedAnalyses analyses m).length = m ∧
    (∀ i, i < m → (limitedAnalyses analyses m).get? i = analyses.get? i) ∧
    (∀ r ∈ limitedAnalyses analyses m, ∃ i, i < m ∧ analyses.get? i = some r) ∧
    chatContext (limitedAnalyses analyses m) sf resp = chatContext (analyses.take m) sf resp := by
  have htake : limitedAnalyses analyses m = analyses.take m := by
    simp [limitedAnalyses, hm]
  refine ⟨htake, ?_, ?_, ?_, by rw [htake]⟩
  · rw [htake, List.length_take]
    omega
  · intro i hi
    rw [htake]
    exact List.get?_take hi
  · intro r hr
    rw [htake] at hr
    obtain ⟨i, hget⟩ := List.mem_iff_get?.mp hr
    have hi : i < m := by
      have := List.get?_eq_some.mp hget
      have hlt := this.1
      rw [List.length_take] at hlt
      omega
    exact ⟨i, hi, by rw [← List.get?_take hi]; exact hget⟩

/-- Witness for C8: the claim's scenario, `max_context = 2` over 5 stored
records — only records 1 and 2 survive. -/
theorem c8_chat_context_truncation_witness :
    (2 < ([⟨1, 0, 10, "a1"⟩, ⟨2, 10, 20, "a2"⟩, ⟨3, 20, 30, "a3"⟩,
          ⟨4, 30, 40, "a4"⟩, ⟨5, 40, 50, "a5"⟩] : List SegRecord).length) ∧
    limitedAnalyses
      [⟨1, 0, 10, "a1"⟩, ⟨2, 10, 20, "a2"⟩, ⟨3, 20, 30, "a3"⟩,
       ⟨4, 30, 40, "a4"⟩, ⟨5, 40, 50, "a5"⟩] 2 =
      ([⟨1, 0, 10, "a1"⟩, ⟨2, 10, 20, "a2"⟩, ⟨3, 20, 30, "a3"⟩,
        ⟨4, 30, 40, "a4"⟩, ⟨5, 40, 50, "a5"⟩] : List SegRecord).take 2 :=
  ⟨by decide,
    (c8_chat_context_truncation
      [⟨1, 0, 10, "a1"⟩, ⟨2, 10, 20, "a2"⟩, ⟨3, 20, 30, "a3"⟩,
       ⟨4, 30, 40, "a4"⟩, ⟨5, 40, 50, "a5"⟩] 2 (by decide) false "").1⟩

/-! ## Frame extraction loop (`process_video` in
`src/utils/video_processing.py`)

`process_video` computes `frames_to_skip = int(fps / frames_per_second)` and
runs `while curr_frame < total_frames - 1`, reading the frame at
`curr_frame` (reading an in-range position of a well-formed file succeeds)
and advancing `curr_frame` by the stride. The loop is embedded with an
iteration budget (`fuel`): `some frames` means the loop exited within the
budget, `none` that it was still running after `fuel` iterations. Frames are
identified by their index. -/

def frameLoop (totalFrames stride : Nat) : Nat → Nat → List Nat → Option (List Nat)
  | fuel, curr, acc =>
    if curr < totalFrames - 1 then
      match fuel with
      | 0 => none
      | fuel' + 1 => frameLoop totalFrames stride fuel' (curr + stride) (acc ++ [curr])
    else some acc

/-- `process_video` (`src/utils/video_processing.py` lines 16-55), reduced
to its loop structure: stride `int(fps / frames_per_second)`, starting at
frame 0 with no frames collected. -/
def processVideoFrames (totalFrames fps framesPerSecond fuel : Nat) : Option (List Nat) :=
  frameLoop totalFrames (fps / framesPerSecond) fuel 0 []

theorem frameLoop_terminates (total stride : Nat) (hs : 1 ≤ stride) :
    ∀ fuel curr acc, total ≤ curr + fuel →
      ∃ res, frameLoop total stride fuel curr acc = some res := by
  intro fuel
  induction fuel with
  | zero =>
    intro curr acc h
    rw [frameLoop, if_neg (by omega)]
    exact ⟨acc, rfl⟩
  | succ fuel ih =>
    intro curr acc h
    rw [frameLoop]
    split
    · exact ih (curr + stride) (acc ++ [curr]) (by omega)
    · exact ⟨acc, rfl⟩

theorem frameLoop_zero_stride_stuck (total : Nat) :
    ∀ fuel curr acc, curr < total - 1 → frameLoop total 0 fuel curr acc = none := by
  intro fuel
  induction fuel with
  | zero =>
    intro curr acc h
    rw [frameLoop, if_pos h]
  | succ fuel ih =>
    intro curr acc h
    rw [frameLoop, if_pos h]
    simpa using ih curr (acc ++ [curr]) h

/-- **C9.** For every video with more than one frame, `process_video`'s loop
terminates with a finite frame list precisely when the computed stride
`int(fps / frames_per_second)` is at least 1 (a budget of `total_frames`
iterations already suffices); when `frames_per_second` exceeds the native
fps the stride is 0, each iteration re-reads the same frame without
advancing `curr_frame`, and the loop is still running after every finite
number of iterations. -/
theorem c9_process_video_termination (totalFrames fps framesPerSecond : Nat)
    (htotal : 1 < totalFrames) :
    (1 ≤ fps / framesPerSecond →
      ∃ frames, processVideoFrames totalFrames fps framesPerSecond totalFrames = some frames) ∧
    (fps / framesPerSecond = 0 →
      ∀ fuel, processVideoFrames totalFrames fps framesPerSecond fuel = none) ∧
    (fps < framesPerSecond → fps / framesPerSecond = 0) ∧
    (∀ fuel curr acc, curr < totalFrames - 1 →
      frameLoop totalFrames 0 (fuel + 1) curr acc =
        frameLoop totalFrames 0 fuel curr (acc ++ [curr])) := by
  refine ⟨?_, ?_, ?_, ?_⟩
  · intro hs
    exact frameLoop_terminates totalFrames (fps / framesPerSecond) hs totalFrames 0 []
      (by omega)
  · intro hz fuel
    rw [processVideoFrames, hz]
    exact frameLoop_zero_stride_stuck totalFrames fuel 0 [] (by omega)
  · intro h
    exact Nat.div_eq_of_lt h
  · intro fuel curr acc h
    rw [frameLoop, if_pos h]
    simp

/-- Witness for C9: 5 frames at 30 fps sampled at 1 fps terminate; stride 0
arises as soon as the requested rate exceeds the native fps. -/
theorem c9_process_video_termination_witness :
    (1 < 5) ∧ (1 ≤ 30 / 1) ∧
    ∃ frames, processVideoFrames 5 30 1 5 = some frames :=
  ⟨by decide, by decide, (c9_process_video_termination 5 30 1 (by decide)).1 (by decide)⟩

end VideoApp
